import Mathlib

/-!
Verification of the version-sort program (`src/main.rs`).

The program parses each input line into a `Version` (the original string
plus a flat list of `VersionPart` segments), sorts the collection with the
comparator of `impl Ord for Version`, and prints the original strings in
sorted order.  Strings are embedded as `List Char` (Rust compares strings
by UTF-8 bytes; for valid UTF-8 the byte order coincides with the
codepoint order used here).  Machine integers (`i64`, `usize`) are
embedded as `Int` / `Nat`; the only place a bound matters is
`str::parse::<i64>`, modelled by `parseI64` with the explicit bound
`I64MAX`, whose failure (Rust panics on `unwrap`) is modelled by `Option`.
-/

/-- Comparison of two `Nat`s, as Rust's `Ord for usize`. -/
def cmpNat (a b : Nat) : Ordering :=
  if a < b then .lt else if a = b then .eq else .gt

/-- Comparison of two `Int`s, as Rust's `Ord for i64`. -/
def cmpInt (a b : Int) : Ordering :=
  if a < b then .lt else if a = b then .eq else .gt

/-- Comparison of two characters by code point, as Rust compares the bytes
of their UTF-8 encodings. -/
def cmpChar (a b : Char) : Ordering :=
  cmpNat a.toNat b.toNat

/-- Lexicographic comparison of two character lists: Rust's `Ord for String`
(byte-lexicographic, a strict non-empty extension is greater). -/
def cmpCharList : List Char → List Char → Ordering
  | [], [] => .eq
  | [], _ :: _ => .lt
  | _ :: _, [] => .gt
  | a :: as', b :: bs' =>
    match cmpChar a b with
    | .eq => cmpCharList as' bs'
    | o => o

/-- Rust `struct VersionPart { n: i64, q: String }`. -/
structure VersionPart where
  n : Int
  q : List Char
deriving DecidableEq

/-- Rust's `#[derive(Ord)]` on `VersionPart`: compare the fields in
declaration order, `n` first, then `q`. -/
def VersionPart.cmp (a b : VersionPart) : Ordering :=
  match cmpInt a.n b.n with
  | .eq => cmpCharList a.q b.q
  | o => o

/-- `VersionPart::default()`: `n = 0`, `q = ""`. -/
def VersionPart.default : VersionPart := ⟨0, []⟩

/-- `VersionPart::new_number(n)`. -/
def VersionPart.new_number (n : Int) : VersionPart := ⟨n, []⟩

/-- `VersionPart::new_qualifier(q)`: maps the (already lowercased)
qualifier text to its rank via the `match q.as_str()` table. -/
def VersionPart.new_qualifier (q : List Char) : VersionPart :=
  ⟨if q = ("snapshot").data then -5
   else if q = ("alpha").data then -4
   else if q = ("beta").data then -3
   else if q = ("rc").data then -2
   else if q = ("cr").data then -2
   else -1, q⟩

/-- The scanning loop of `Version::parse_part`: walks the characters of the
token with their indices, tracking `suffix_start`.  A digit sets
`suffix_start` when it is unset; a non-digit met while `suffix_start` is
set resets it to `None` and breaks out of the loop. -/
def suffixStartGo : List Char → Nat → Option Nat → Option Nat
  | [], _, st => st
  | c :: rest, i, st =>
    if c.isDigit then
      match st with
      | none => suffixStartGo rest (i + 1) (some i)
      | some j => suffixStartGo rest (i + 1) (some j)
    else
      match st with
      | none => suffixStartGo rest (i + 1) none
      | some _ => none

/-- `i64::MAX`. -/
def I64MAX : Int := 9223372036854775807

/-- Numeric value of a decimal digit string. -/
def digitsToNat (s : List Char) : Nat :=
  s.foldl (fun acc c => acc * 10 + (c.toNat - 48)) 0

/-- Model of `str::parse::<i64>()` restricted to the shapes that reach it
here (no sign): it succeeds exactly on a non-empty all-digit string whose
value fits in `i64`, and `none` models the `Err` that `unwrap` turns into
a panic. -/
def parseI64 (s : List Char) : Option Int :=
  if s ≠ [] ∧ s.all Char.isDigit ∧ (digitsToNat s : Int) ≤ I64MAX then
    some ((digitsToNat s : Int))
  else none

/-- Rust `struct Version { s: String, parts: Vec<VersionPart> }`. -/
structure Version where
  s : String
  parts : List VersionPart
deriving DecidableEq

/-- `Version::parse_part`: split the token at `suffix_start` when the scan
found one; an empty prefix or suffix half becomes `VersionPart::default()`,
a non-empty suffix is parsed as `i64` (`none` = the `unwrap` panic).  When
the scan found no suffix the whole token becomes the qualifier half. -/
def Version.parsePart (part : List Char) : Option (VersionPart × VersionPart) :=
  match suffixStartGo part 0 none with
  | none => some (VersionPart.new_qualifier part, VersionPart.default)
  | some idx =>
    let q := part.take idx
    let n := part.drop idx
    let qp := if q = [] then VersionPart.default else VersionPart.new_qualifier q
    if n = [] then some (qp, VersionPart.default)
    else
      match parseI64 n with
      | some v => some (qp, VersionPart.new_number v)
      | none => none

/-- Separator predicate of `Version::parse`:
`|c| c == '=' || c == '.' || c == '_'`. -/
def isSep (c : Char) : Bool :=
  c == '=' || c == '.' || c == '_'

/-- Rust `str::split` on the separator predicate: consecutive, leading and
trailing separators produce empty tokens, and the empty string yields one
empty token. -/
def splitTokens : List Char → List (List Char)
  | [] => [[]]
  | c :: rest =>
    if isSep c then
      [] :: splitTokens rest
    else
      match splitTokens rest with
      | [] => [[c]]
      | t :: ts => (c :: t) :: ts

/-- `str::to_lowercase` on the character list (the inputs of interest are
ASCII, where Rust's Unicode lowercasing is exactly per-character). -/
def lowercase (l : List Char) : List Char :=
  l.map Char.toLower

/-- The token loop of `Version::parse`: for each token push the qualifier
half then the numeric half; a panic in any `parse_part` aborts the whole
parse. -/
def Version.parseTokens : List (List Char) → Option (List VersionPart)
  | [] => some []
  | t :: ts =>
    match Version.parsePart t, Version.parseTokens ts with
    | some (q, n), some rest => some (q :: n :: rest)
    | _, _ => none

/-- `Version::parse`: lowercase, split on the separators, parse every
token, and keep the verbatim original string `s`. -/
def Version.parse (s : String) : Option Version :=
  (Version.parseTokens (splitTokens (lowercase s.data))).map fun ps => ⟨s, ps⟩

/-- The index loop of `impl Ord for Version`: for each index in the list,
fetch each side's part (or `VersionPart::default()` past the end), return
the first non-equal comparison; when the indices run out, compare the
lengths. -/
def loopCmp (a b : List VersionPart) : List Nat → Ordering
  | [] => cmpNat a.length b.length
  | i :: is =>
    match VersionPart.cmp (a.getD i VersionPart.default) (b.getD i VersionPart.default) with
    | .eq => loopCmp a b is
    | o => o

/-- `impl Ord for Version`: run the loop over `0 .. max(len_a, len_b)`. -/
def Version.cmp (v w : Version) : Ordering :=
  loopCmp v.parts w.parts (List.range (max v.parts.length w.parts.length))

/-- Structural form of the comparator's padded pass: compare the two part
lists position by position, padding the shorter side with
`VersionPart.default`, and stop at the first non-equal position.  Proved
below to agree with `loopCmp` over the index range (`Version.cmp_eq_pad`);
used to reason about the order. -/
def padCmp : List VersionPart → List VersionPart → Ordering
  | [], [] => .eq
  | [], y :: bs =>
    match VersionPart.cmp VersionPart.default y with
    | .eq => padCmp [] bs
    | o => o
  | x :: as', [] =>
    match VersionPart.cmp x VersionPart.default with
    | .eq => padCmp as' []
    | o => o
  | x :: as', y :: bs =>
    match VersionPart.cmp x y with
    | .eq => padCmp as' bs
    | o => o

/-- Sort relation used by `sort_unstable`: ascending by `Version.cmp`. -/
def versionLE (a b : Version) : Prop :=
  Version.cmp a b ≠ Ordering.gt

instance : DecidableRel versionLE :=
  fun a b => inferInstanceAs (Decidable ¬(Version.cmp a b = Ordering.gt))

/-- `impl Display for Version`: write the verbatim original string. -/
def renderVersion (v : Version) : String := v.s

/-- The line loop of `main`: parse every line eagerly; a parse panic aborts
the whole run. -/
def parseLines : List String → Option (List Version)
  | [] => some []
  | l :: ls =>
    match Version.parse l, parseLines ls with
    | some v, some vs => some (v :: vs)
    | _, _ => none

/-- Whole program on a list of input lines: parse all lines, sort by the
comparator (`sort_unstable`: any sorted permutation; insertion sort is
used as the executable model), render each original string.  `none` models
the aborted run with no output. -/
def sortLines (lines : List String) : Option (List String) :=
  (parseLines lines).map fun vs => (List.insertionSort versionLE vs).map renderVersion

/-- Comparison of two raw input lines through parsing, for stating concrete
ordering facts: `none` when either line fails to parse. -/
def cmpLines (a b : String) : Option Ordering :=
  match Version.parse a, Version.parse b with
  | some va, some vb => some (Version.cmp va vb)
  | _, _ => none

/-! ### Basic properties of the element comparators -/

theorem cmpNat_eq_iff {a b : Nat} : cmpNat a b = .eq ↔ a = b := by
  unfold cmpNat
  split_ifs with h1 h2 <;> simp <;> omega

theorem cmpNat_lt_iff {a b : Nat} : cmpNat a b = .lt ↔ a < b := by
  unfold cmpNat
  split_ifs with h1 h2 <;> simp <;> omega

theorem cmpNat_swap (a b : Nat) : cmpNat b a = (cmpNat a b).swap := by
  unfold cmpNat
  split_ifs with h1 h2 h3 h4 <;> simp [Ordering.swap] <;> omega

theorem cmpInt_eq_iff {a b : Int} : cmpInt a b = .eq ↔ a = b := by
  unfold cmpInt
  split_ifs with h1 h2 <;> simp <;> omega

theorem cmpInt_lt_iff {a b : Int} : cmpInt a b = .lt ↔ a < b := by
  unfold cmpInt
  split_ifs with h1 h2 <;> simp <;> omega

theorem cmpInt_swap (a b : Int) : cmpInt b a = (cmpInt a b).swap := by
  unfold cmpInt
  split_ifs with h1 h2 h3 h4 <;> simp [Ordering.swap] <;> omega

theorem cmpChar_eq_iff {a b : Char} : cmpChar a b = .eq ↔ a = b := by
  unfold cmpChar
  rw [cmpNat_eq_iff]
  constructor
  · intro h
    rw [← Char.ofNat_toNat a, h, Char.ofNat_toNat]
  · intro h
    rw [h]

theorem cmpChar_lt_iff {a b : Char} : cmpChar a b = .lt ↔ a.toNat < b.toNat := by
  unfold cmpChar
  exact cmpNat_lt_iff

theorem cmpChar_swap (a b : Char) : cmpChar b a = (cmpChar a b).swap := by
  unfold cmpChar
  exact cmpNat_swap _ _

theorem cmpChar_lt_trans {a b c : Char} (h1 : cmpChar a b = .lt)
    (h2 : cmpChar b c = .lt) : cmpChar a c = .lt := by
  rw [cmpChar_lt_iff] at *
  omega

theorem cmpCharList_eq_iff : ∀ {a b : List Char}, cmpCharList a b = .eq ↔ a = b
  | [], [] => by simp [cmpCharList]
  | [], _ :: _ => by simp [cmpCharList]
  | _ :: _, [] => by simp [cmpCharList]
  | a :: as', b :: bs' => by
    simp only [cmpCharList]
    cases h : cmpChar a b with
    | eq =>
      rw [cmpChar_eq_iff] at h
      simp [h, cmpCharList_eq_iff]
    | lt =>
      have hne : a ≠ b := by
        intro hab
        rw [hab, cmpChar_eq_iff.mpr rfl] at h
        cases h
      simp [hne]
    | gt =>
      have hne : a ≠ b := by
        intro hab
        rw [hab, cmpChar_eq_iff.mpr rfl] at h
        cases h
      simp [hne]

theorem cmpCharList_swap : ∀ (a b : List Char), cmpCharList b a = (cmpCharList a b).swap
  | [], [] => rfl
  | [], _ :: _ => rfl
  | _ :: _, [] => rfl
  | a :: as', b :: bs' => by
    simp only [cmpCharList, cmpChar_swap a b]
    cases h : cmpChar a b <;> simp [Ordering.swap, cmpCharList_swap as' bs']

theorem cmpCharList_lt_trans {a b c : List Char} (h1 : cmpCharList a b = .lt)
    (h2 : cmpCharList b c = .lt) : cmpCharList a c = .lt := by
  induction a generalizing b c with
  | nil =>
    cases c with
    | nil =>
      cases b with
      | nil => exact h2
      | cons y ys => simp [cmpCharList] at h2
    | cons z zs => simp [cmpCharList]
  | cons x xs ih =>
    cases b with
    | nil => simp [cmpCharList] at h1
    | cons y ys =>
      cases c with
      | nil => simp [cmpCharList] at h2
      | cons z zs =>
        simp only [cmpCharList] at h1 h2 ⊢
        cases hxy : cmpChar x y with
        | gt => rw [hxy] at h1; simp at h1
        | lt =>
          rw [hxy] at h1
          cases hyz : cmpChar y z with
          | gt => rw [hyz] at h2; simp at h2
          | lt => rw [cmpChar_lt_trans hxy hyz]
          | eq =>
            have heq : y = z := cmpChar_eq_iff.mp hyz
            subst heq
            rw [hxy]
        | eq =>
          have hxy' : x = y := cmpChar_eq_iff.mp hxy
          subst hxy'
          rw [hxy] at h1
          cases hyz : cmpChar x z with
          | gt => rw [hyz] at h2; simp at h2
          | lt => rfl
          | eq => rw [hyz] at h2; exact ih h1 h2

/-! ### Properties of the part comparator -/

theorem partCmp_eq_iff {a b : VersionPart} :
    VersionPart.cmp a b = .eq ↔ a = b := by
  cases a with
  | mk an aq =>
    cases b with
    | mk bn bq =>
      unfold VersionPart.cmp
      simp only
      cases h : cmpInt an bn with
      | eq =>
        rw [cmpInt_eq_iff] at h
        simp [h, cmpCharList_eq_iff]
      | lt =>
        have hne : an ≠ bn := by
          intro hab
          rw [hab, cmpInt_eq_iff.mpr rfl] at h
          cases h
        simp [hne]
      | gt =>
        have hne : an ≠ bn := by
          intro hab
          rw [hab, cmpInt_eq_iff.mpr rfl] at h
          cases h
        simp [hne]

theorem partCmp_refl (a : VersionPart) : VersionPart.cmp a a = .eq :=
  partCmp_eq_iff.mpr rfl

theorem partCmp_swap (a b : VersionPart) :
    VersionPart.cmp b a = (VersionPart.cmp a b).swap := by
  unfold VersionPart.cmp
  rw [cmpInt_swap a.n b.n]
  cases h : cmpInt a.n b.n <;>
    simp [Ordering.swap, cmpCharList_swap a.q b.q]

theorem partCmp_lt_trans {a b c : VersionPart}
    (h1 : VersionPart.cmp a b = .lt) (h2 : VersionPart.cmp b c = .lt) :
    VersionPart.cmp a c = .lt := by
  unfold VersionPart.cmp at h1 h2 ⊢
  cases hab : cmpInt a.n b.n with
  | gt => rw [hab] at h1; simp at h1
  | lt =>
    rw [hab] at h1
    rw [cmpInt_lt_iff] at hab
    cases hbc : cmpInt b.n c.n with
    | gt => rw [hbc] at h2; simp at h2
    | lt =>
      rw [cmpInt_lt_iff] at hbc
      rw [cmpInt_lt_iff.mpr (lt_trans hab hbc)]
    | eq =>
      rw [cmpInt_eq_iff] at hbc
      rw [cmpInt_lt_iff.mpr (hbc ▸ hab)]
  | eq =>
    rw [hab] at h1
    rw [cmpInt_eq_iff] at hab
    cases hbc : cmpInt b.n c.n with
    | gt => rw [hbc] at h2; simp at h2
    | lt =>
      rw [cmpInt_lt_iff] at hbc
      rw [cmpInt_lt_iff.mpr (hab ▸ hbc)]
    | eq =>
      rw [hbc] at h2
      rw [cmpInt_eq_iff] at hbc
      rw [cmpInt_eq_iff.mpr (hab.trans hbc)]
      exact cmpCharList_lt_trans h1 h2

/-! ### The padded positional pass: pointwise characterization -/

theorem padCmp_eq_iff_pointwise :
    ∀ {a b : List VersionPart}, padCmp a b = .eq ↔
      ∀ i, a.getD i VersionPart.default = b.getD i VersionPart.default
  | [], [] => by simp [padCmp]
  | [], y :: bs => by
    simp only [padCmp]
    cases h : VersionPart.cmp VersionPart.default y with
    | eq =>
      rw [partCmp_eq_iff] at h
      rw [padCmp_eq_iff_pointwise]
      constructor
      · intro hall i
        cases i with
        | zero => simpa using h
        | succ j => simpa using hall j
      · intro hall i
        have := hall (i + 1)
        simpa using this
    | lt =>
      have hne : VersionPart.default ≠ y := by
        intro hd
        rw [hd, partCmp_eq_iff.mpr rfl] at h
        cases h
      simp only [reduceCtorEq, false_iff, not_forall]
      exact ⟨0, by simpa using hne⟩
    | gt =>
      have hne : VersionPart.default ≠ y := by
        intro hd
        rw [hd, partCmp_eq_iff.mpr rfl] at h
        cases h
      simp only [reduceCtorEq, false_iff, not_forall]
      exact ⟨0, by simpa using hne⟩
  | x :: as', [] => by
    simp only [padCmp]
    cases h : VersionPart.cmp x VersionPart.default with
    | eq =>
      rw [partCmp_eq_iff] at h
      rw [padCmp_eq_iff_pointwise]
      constructor
      · intro hall i
        cases i with
        | zero => simpa using h
        | succ j => simpa using hall j
      · intro hall i
        have := hall (i + 1)
        simpa using this
    | lt =>
      have hne : x ≠ VersionPart.default := by
        intro hd
        rw [hd, partCmp_eq_iff.mpr rfl] at h
        cases h
      simp only [reduceCtorEq, false_iff, not_forall]
      exact ⟨0, by simpa using hne⟩
    | gt =>
      have hne : x ≠ VersionPart.default := by
        intro hd
        rw [hd, partCmp_eq_iff.mpr rfl] at h
        cases h
      simp only [reduceCtorEq, false_iff, not_forall]
      exact ⟨0, by simpa using hne⟩
  | x :: as', y :: bs => by
    simp only [padCmp]
    cases h : VersionPart.cmp x y with
    | eq =>
      rw [partCmp_eq_iff] at h
      rw [padCmp_eq_iff_pointwise]
      constructor
      · intro hall i
        cases i with
        | zero => simpa using h
        | succ j => simpa using hall j
      · intro hall i
        have := hall (i + 1)
        simpa using this
    | lt =>
      have hne : x ≠ y := by
        intro hd
        rw [hd, partCmp_eq_iff.mpr rfl] at h
        cases h
      simp only [reduceCtorEq, false_iff, not_forall]
      exact ⟨0, by simpa using hne⟩
    | gt =>
      have hne : x ≠ y := by
        intro hd
        rw [hd, partCmp_eq_iff.mpr rfl] at h
        cases h
      simp only [reduceCtorEq, false_iff, not_forall]
      exact ⟨0, by simpa using hne⟩

/-! ### The padded positional pass: first-difference characterization -/

theorem padCmp_refl (a : List VersionPart) : padCmp a a = .eq :=
  padCmp_eq_iff_pointwise.mpr fun _ => rfl

/-- A non-`eq` outcome of the padded pass happens at a first difference:
some position `k` below `max` of the lengths compares to that outcome
while every earlier position holds equal parts. -/
theorem padCmp_firstDiff :
    ∀ {a b : List VersionPart} {o : Ordering}, padCmp a b = o → o ≠ .eq →
      ∃ k, (∀ i, i < k → a.getD i VersionPart.default = b.getD i VersionPart.default) ∧
        VersionPart.cmp (a.getD k VersionPart.default) (b.getD k VersionPart.default) = o ∧
        k < max a.length b.length
  | [], [], o => fun h hne => by
    simp only [padCmp] at h
    exact absurd h.symm hne
  | [], y :: bs, o => by
    intro h hne
    simp only [padCmp] at h
    cases hd : VersionPart.cmp VersionPart.default y with
    | eq =>
      rw [hd] at h
      obtain ⟨k, hpre, hk, hbound⟩ := padCmp_firstDiff h hne
      refine ⟨k + 1, ?_, ?_, ?_⟩
      · intro i hi
        cases i with
        | zero => simpa using partCmp_eq_iff.mp hd
        | succ j => simpa using hpre j (by omega)
      · simpa using hk
      · simp only [List.length_nil, List.length_cons] at hbound ⊢
        omega
    | lt =>
      rw [hd] at h
      cases h
      refine ⟨0, by omega, by simpa using hd, by simp⟩
    | gt =>
      rw [hd] at h
      cases h
      refine ⟨0, by omega, by simpa using hd, by simp⟩
  | x :: as', [], o => by
    intro h hne
    simp only [padCmp] at h
    cases hd : VersionPart.cmp x VersionPart.default with
    | eq =>
      rw [hd] at h
      obtain ⟨k, hpre, hk, hbound⟩ := padCmp_firstDiff h hne
      refine ⟨k + 1, ?_, ?_, ?_⟩
      · intro i hi
        cases i with
        | zero => simpa using partCmp_eq_iff.mp hd
        | succ j => simpa using hpre j (by omega)
      · simpa using hk
      · simp only [List.length_nil, List.length_cons] at hbound ⊢
        omega
    | lt =>
      rw [hd] at h
      cases h
      refine ⟨0, by omega, by simpa using hd, by simp⟩
    | gt =>
      rw [hd] at h
      cases h
      refine ⟨0, by omega, by simpa using hd, by simp⟩
  | x :: as', y :: bs, o => by
    intro h hne
    simp only [padCmp] at h
    cases hd : VersionPart.cmp x y with
    | eq =>
      rw [hd] at h
      obtain ⟨k, hpre, hk, hbound⟩ := padCmp_firstDiff h hne
      refine ⟨k + 1, ?_, ?_, ?_⟩
      · intro i hi
        cases i with
        | zero => simpa using partCmp_eq_iff.mp hd
        | succ j => simpa using hpre j (by omega)
      · simpa using hk
      · simp only [List.length_cons] at hbound ⊢
        omega
    | lt =>
      rw [hd] at h
      cases h
      refine ⟨0, by omega, by simpa using hd, by simp⟩
    | gt =>
      rw [hd] at h
      cases h
      refine ⟨0, by omega, by simpa using hd, by simp⟩

/-- Converse: equal parts before position `k` and a non-`eq` comparison at
`k` force that outcome of the padded pass. -/
theorem padCmp_of_firstDiff :
    ∀ {a b : List VersionPart} {o : Ordering} {k : Nat},
      (∀ i, i < k → a.getD i VersionPart.default = b.getD i VersionPart.default) →
      VersionPart.cmp (a.getD k VersionPart.default) (b.getD k VersionPart.default) = o →
      o ≠ .eq → padCmp a b = o := by
  intro a b o k
  induction k generalizing a b with
  | zero =>
    intro _ hk hne
    cases a with
    | nil =>
      cases b with
      | nil =>
        simp only [List.getD_nil] at hk
        rw [partCmp_refl] at hk
        exact absurd hk.symm hne
      | cons y bs =>
        simp only [padCmp]
        simp only [List.getD_nil, List.getD_cons_zero] at hk
        rw [hk]
        cases o <;> simp_all
    | cons x as' =>
      cases b with
      | nil =>
        simp only [padCmp]
        simp only [List.getD_nil, List.getD_cons_zero] at hk
        rw [hk]
        cases o <;> simp_all
      | cons y bs =>
        simp only [padCmp]
        simp only [List.getD_cons_zero] at hk
        rw [hk]
        cases o <;> simp_all
  | succ k ih =>
    intro hpre hk hne
    cases a with
    | nil =>
      cases b with
      | nil =>
        simp only [List.getD_nil] at hk
        rw [partCmp_refl] at hk
        exact absurd hk.symm hne
      | cons y bs =>
        have h0 := hpre 0 (by omega)
        simp only [List.getD_nil, List.getD_cons_zero] at h0
        simp only [padCmp, ← h0, partCmp_refl]
        refine ih ?_ ?_ hne
        · intro i hi
          simpa using hpre (i + 1) (by omega)
        · simpa using hk
    | cons x as' =>
      cases b with
      | nil =>
        have h0 := hpre 0 (by omega)
        simp only [List.getD_nil, List.getD_cons_zero] at h0
        simp only [padCmp, h0, partCmp_refl]
        refine ih ?_ ?_ hne
        · intro i hi
          simpa using hpre (i + 1) (by omega)
        · simpa using hk
      | cons y bs =>
        have h0 := hpre 0 (by omega)
        simp only [List.getD_cons_zero] at h0
        simp only [padCmp, h0, partCmp_refl]
        refine ih ?_ ?_ hne
        · intro i hi
          simpa using hpre (i + 1) (by omega)
        · simpa using hk

theorem padCmp_swap (a b : List VersionPart) : padCmp b a = (padCmp a b).swap := by
  cases h : padCmp a b with
  | eq =>
    rw [padCmp_eq_iff_pointwise] at h
    exact padCmp_eq_iff_pointwise.mpr fun i => (h i).symm
  | lt =>
    show padCmp b a = Ordering.gt
    obtain ⟨k, hpre, hk, _⟩ := padCmp_firstDiff h (by decide)
    refine padCmp_of_firstDiff (fun i hi => (hpre i hi).symm) ?_ (by decide)
    rw [partCmp_swap, hk]
    rfl
  | gt =>
    show padCmp b a = Ordering.lt
    obtain ⟨k, hpre, hk, _⟩ := padCmp_firstDiff h (by decide)
    refine padCmp_of_firstDiff (fun i hi => (hpre i hi).symm) ?_ (by decide)
    rw [partCmp_swap, hk]
    rfl

/-! ### The index loop agrees with the padded pass -/

theorem loopCmp_all_eq {a b : List VersionPart} :
    ∀ {is : List Nat},
      (∀ i ∈ is, VersionPart.cmp (a.getD i VersionPart.default) (b.getD i VersionPart.default) = .eq) →
      loopCmp a b is = cmpNat a.length b.length
  | [], _ => rfl
  | i :: is, h => by
    simp only [loopCmp, h i (by simp)]
    exact loopCmp_all_eq fun j hj => h j (by simp [hj])

theorem loopCmp_append_eq {a b : List VersionPart} :
    ∀ {is₁ is₂ : List Nat},
      (∀ i ∈ is₁, VersionPart.cmp (a.getD i VersionPart.default) (b.getD i VersionPart.default) = .eq) →
      loopCmp a b (is₁ ++ is₂) = loopCmp a b is₂
  | [], _, _ => rfl
  | i :: is₁, is₂, h => by
    simp only [List.cons_append, loopCmp, h i (by simp)]
    exact loopCmp_append_eq fun j hj => h j (by simp [hj])

/-- The comparator of `impl Ord for Version` is the padded positional pass
followed by the length tie-break. -/
theorem Version.cmp_eq_pad (v w : Version) :
    Version.cmp v w =
      match padCmp v.parts w.parts with
      | .eq => cmpNat v.parts.length w.parts.length
      | o => o := by
  unfold Version.cmp
  cases h : padCmp v.parts w.parts with
  | eq =>
    rw [padCmp_eq_iff_pointwise] at h
    exact loopCmp_all_eq fun i _ => by rw [h i, partCmp_refl]
  | lt =>
    obtain ⟨k, hpre, hk, hbound⟩ := padCmp_firstDiff h (by decide)
    have hsplit : max v.parts.length w.parts.length = k + (max v.parts.length w.parts.length - k) := by
      omega
    rw [hsplit, List.range_add, loopCmp_append_eq]
    · have : max v.parts.length w.parts.length - k = (max v.parts.length w.parts.length - k - 1) + 1 := by
        omega
      rw [this, List.range_succ_eq_map]
      simp only [List.map_cons, loopCmp, Nat.add_zero, hk]
    · intro i hi
      rw [List.mem_range] at hi
      rw [hpre i hi, partCmp_refl]
  | gt =>
    obtain ⟨k, hpre, hk, hbound⟩ := padCmp_firstDiff h (by decide)
    have hsplit : max v.parts.length w.parts.length = k + (max v.parts.length w.parts.length - k) := by
      omega
    rw [hsplit, List.range_add, loopCmp_append_eq]
    · have : max v.parts.length w.parts.length - k = (max v.parts.length w.parts.length - k - 1) + 1 := by
        omega
      rw [this, List.range_succ_eq_map]
      simp only [List.map_cons, loopCmp, Nat.add_zero, hk]
    · intro i hi
      rw [List.mem_range] at hi
      rw [hpre i hi, partCmp_refl]

/-! ### The comparator is a strict total order -/

theorem list_eq_of_getD :
    ∀ {a b : List VersionPart}, a.length = b.length →
      (∀ i, a.getD i VersionPart.default = b.getD i VersionPart.default) → a = b
  | [], [], _, _ => rfl
  | [], _ :: _, hlen, _ => by simp at hlen
  | _ :: _, [], hlen, _ => by simp at hlen
  | x :: as', y :: bs, hlen, h => by
    have h0 := h 0
    simp only [List.getD_cons_zero] at h0
    have hrest := list_eq_of_getD (a := as') (b := bs) (by simpa using hlen)
      fun i => by simpa using h (i + 1)
    rw [h0, hrest]

theorem Version.cmp_eq_iff {v w : Version} :
    Version.cmp v w = .eq ↔ v.parts = w.parts := by
  rw [Version.cmp_eq_pad]
  cases h : padCmp v.parts w.parts with
  | eq =>
    rw [padCmp_eq_iff_pointwise] at h
    simp only [cmpNat_eq_iff]
    constructor
    · intro hlen
      exact list_eq_of_getD hlen h
    · intro heq
      rw [heq]
  | lt =>
    simp only [reduceCtorEq, false_iff]
    intro heq
    rw [heq, padCmp_refl] at h
    cases h
  | gt =>
    simp only [reduceCtorEq, false_iff]
    intro heq
    rw [heq, padCmp_refl] at h
    cases h

theorem Version.cmp_swap (v w : Version) :
    Version.cmp w v = (Version.cmp v w).swap := by
  rw [Version.cmp_eq_pad, Version.cmp_eq_pad, padCmp_swap v.parts w.parts,
    cmpNat_swap v.parts.length w.parts.length]
  cases padCmp v.parts w.parts <;> simp [Ordering.swap]

theorem padCmp_lt_trans {a b c : List VersionPart}
    (h1 : padCmp a b = .lt) (h2 : padCmp b c = .lt) : padCmp a c = .lt := by
  obtain ⟨k1, hpre1, hk1, _⟩ := padCmp_firstDiff h1 (by decide)
  obtain ⟨k2, hpre2, hk2, _⟩ := padCmp_firstDiff h2 (by decide)
  rcases lt_trichotomy k1 k2 with hlt | heq | hgt
  · refine padCmp_of_firstDiff (k := k1) ?_ ?_ (by decide)
    · intro i hi
      rw [hpre1 i hi, hpre2 i (by omega)]
    · rw [← hpre2 k1 hlt]
      exact hk1
  · subst heq
    refine padCmp_of_firstDiff (k := k1) ?_ ?_ (by decide)
    · intro i hi
      rw [hpre1 i hi, hpre2 i hi]
    · exact partCmp_lt_trans hk1 hk2
  · refine padCmp_of_firstDiff (k := k2) ?_ ?_ (by decide)
    · intro i hi
      rw [hpre1 i (by omega), hpre2 i hi]
    · rw [hpre1 k2 hgt]
      exact hk2

theorem padCmp_eq_lt_trans {a b c : List VersionPart}
    (h1 : padCmp a b = .eq) (h2 : padCmp b c = .lt) : padCmp a c = .lt := by
  rw [padCmp_eq_iff_pointwise] at h1
  obtain ⟨k2, hpre2, hk2, _⟩ := padCmp_firstDiff h2 (by decide)
  refine padCmp_of_firstDiff (k := k2) ?_ ?_ (by decide)
  · intro i hi
    rw [h1 i, hpre2 i hi]
  · rw [h1 k2]
    exact hk2

theorem padCmp_lt_eq_trans {a b c : List VersionPart}
    (h1 : padCmp a b = .lt) (h2 : padCmp b c = .eq) : padCmp a c = .lt := by
  rw [padCmp_eq_iff_pointwise] at h2
  obtain ⟨k1, hpre1, hk1, _⟩ := padCmp_firstDiff h1 (by decide)
  refine padCmp_of_firstDiff (k := k1) ?_ ?_ (by decide)
  · intro i hi
    rw [hpre1 i hi, h2 i]
  · rw [← h2 k1]
    exact hk1

theorem padCmp_eq_trans {a b c : List VersionPart}
    (h1 : padCmp a b = .eq) (h2 : padCmp b c = .eq) : padCmp a c = .eq := by
  rw [padCmp_eq_iff_pointwise] at h1 h2 ⊢
  intro i
  rw [h1 i, h2 i]

theorem Version.cmp_lt_trans {u v w : Version}
    (h1 : Version.cmp u v = .lt) (h2 : Version.cmp v w = .lt) :
    Version.cmp u w = .lt := by
  rw [Version.cmp_eq_pad] at h1 h2 ⊢
  cases huv : padCmp u.parts v.parts with
  | gt => rw [huv] at h1; cases h1
  | lt =>
    rw [huv] at h1
    cases hvw : padCmp v.parts w.parts with
    | gt => rw [hvw] at h2; cases h2
    | lt => rw [padCmp_lt_trans huv hvw]
    | eq => rw [padCmp_lt_eq_trans huv hvw]
  | eq =>
    rw [huv] at h1
    cases hvw : padCmp v.parts w.parts with
    | gt => rw [hvw] at h2; cases h2
    | lt => rw [padCmp_eq_lt_trans huv hvw]
    | eq =>
      rw [hvw] at h2
      rw [padCmp_eq_trans huv hvw]
      rw [cmpNat_lt_iff] at h1 h2 ⊢
      omega

/-! ### The suffix scanner -/

theorem suffixStartGo_some_state :
    ∀ (l : List Char) (i j : Nat),
      suffixStartGo l i (some j) = if l.all Char.isDigit then some j else none
  | [], _, _ => by simp [suffixStartGo]
  | c :: rest, i, j => by
    simp only [suffixStartGo, List.all_cons]
    by_cases hc : c.isDigit = true
    · rw [if_pos hc, suffixStartGo_some_state rest (i + 1) j]
      simp [hc]
    · have hcf : c.isDigit = false := by simpa using hc
      rw [if_neg hc]
      simp [hcf]

theorem suffixStartGo_none_some :
    ∀ {l : List Char} {i r : Nat}, suffixStartGo l i none = some r →
      ∃ k, r = i + k ∧ k < l.length ∧ (l.drop k).all Char.isDigit ∧
        (∀ c ∈ l.take k, c.isDigit = false)
  | [], i, r => by
    intro h
    simp [suffixStartGo] at h
  | c :: rest, i, r => by
    intro h
    simp only [suffixStartGo] at h
    by_cases hc : c.isDigit = true
    · rw [if_pos hc, suffixStartGo_some_state] at h
      by_cases hall : rest.all Char.isDigit = true
      · rw [if_pos hall] at h
        injection h with h
        subst h
        refine ⟨0, by omega, by simp, ?_, by simp⟩
        simp [hc, hall]
      · rw [if_neg hall] at h
        cases h
    · rw [if_neg hc] at h
      obtain ⟨k, hk, hlen, hdig, hpre⟩ := suffixStartGo_none_some h
      refine ⟨k + 1, by omega, by simp only [List.length_cons]; omega,
        by simpa using hdig, ?_⟩
      intro x hx
      simp only [List.take_succ_cons, List.mem_cons] at hx
      rcases hx with rfl | hx
      · simpa using hc
      · exact hpre x hx

theorem suffixStartGo_mixed_none :
    ∀ (p : List Char) (d : Char) (rest : List Char) (i : Nat),
      d.isDigit = true → (∃ c ∈ rest, c.isDigit = false) →
      suffixStartGo (p ++ d :: rest) i none = none
  | [], d, rest, i => by
    intro hd hex
    obtain ⟨c, hc, hcd⟩ := hex
    have hall : rest.all Char.isDigit = false := by
      rw [List.all_eq_false]
      exact ⟨c, hc, by simp [hcd]⟩
    simp only [List.nil_append, suffixStartGo]
    rw [if_pos hd, suffixStartGo_some_state, hall]
    simp
  | x :: p', d, rest, i => by
    intro hd hex
    obtain ⟨c, hc, hcd⟩ := hex
    simp only [List.cons_append, suffixStartGo]
    by_cases hx : x.isDigit = true
    · have hall : (p' ++ d :: rest).all Char.isDigit = false := by
        rw [List.all_eq_false]
        exact ⟨c, by simp [hc], by simp [hcd]⟩
      rw [if_pos hx, suffixStartGo_some_state]
      simp [hall]
    · rw [if_neg hx]
      exact suffixStartGo_mixed_none p' d rest (i + 1) hd ⟨c, hc, hcd⟩

/-! ### `parse_part` fails exactly on `i64` overflow -/

theorem parsePart_none_iff {t : List Char} :
    Version.parsePart t = none ↔
      ∃ idx, suffixStartGo t 0 none = some idx ∧
        I64MAX < (digitsToNat (t.drop idx) : Int) := by
  cases h : suffixStartGo t 0 none with
  | none =>
    simp only [Version.parsePart, h]
    simp
  | some idx =>
    obtain ⟨k, hk, hlen, hdig, _⟩ := suffixStartGo_none_some h
    have hkidx : k = idx := by omega
    subst hkidx
    have hne : t.drop k ≠ [] := by
      rw [Ne, List.drop_eq_nil_iff_le]
      omega
    constructor
    · intro hnone
      refine ⟨k, rfl, ?_⟩
      by_contra hle
      push_neg at hle
      have hsome : parseI64 (t.drop k) = some ((digitsToNat (t.drop k) : Int)) := by
        unfold parseI64
        rw [if_pos ⟨hne, hdig, hle⟩]
      simp only [Version.parsePart, h, hsome] at hnone
      rw [if_neg hne] at hnone
      cases hnone
    · rintro ⟨idx', hidx', hover⟩
      injection hidx' with hii
      subst hii
      have hno : parseI64 (t.drop k) = none := by
        unfold parseI64
        rw [if_neg]
        rintro ⟨_, _, hle⟩
        omega
      simp only [Version.parsePart, h, hno]
      rw [if_neg hne]

/-! ### Parsing whole strings and whole inputs -/

theorem parseTokens_none_iff :
    ∀ {ts : List (List Char)}, Version.parseTokens ts = none ↔
      ∃ t ∈ ts, Version.parsePart t = none
  | [] => by simp [Version.parseTokens]
  | t :: ts => by
    simp only [Version.parseTokens]
    cases hp : Version.parsePart t with
    | none =>
      constructor
      · intro _
        exact ⟨t, List.mem_cons_self t ts, hp⟩
      · intro _
        rfl
    | some qn =>
      cases hts : Version.parseTokens ts with
      | none =>
        have := parseTokens_none_iff.mp hts
        simp only [List.mem_cons]
        constructor
        · intro _
          obtain ⟨u, hu, hnu⟩ := this
          exact ⟨u, Or.inr hu, hnu⟩
        · intro _
          trivial
      | some rest =>
        constructor
        · intro hcontra
          cases hcontra
        · rintro ⟨u, hu, hnu⟩
          rcases List.mem_cons.mp hu with rfl | hu'
          · rw [hp] at hnu
            cases hnu
          · have : Version.parseTokens ts = none :=
              parseTokens_none_iff.mpr ⟨u, hu', hnu⟩
            rw [this] at hts
            cases hts

theorem parseTokens_length :
    ∀ {ts : List (List Char)} {ps : List VersionPart},
      Version.parseTokens ts = some ps → ps.length = 2 * ts.length
  | [], ps => by
    intro h
    simp only [Version.parseTokens] at h
    injection h with h
    subst h
    rfl
  | t :: ts, ps => by
    intro h
    simp only [Version.parseTokens] at h
    cases hp : Version.parsePart t with
    | none => rw [hp] at h; cases h
    | some qn =>
      rw [hp] at h
      cases hts : Version.parseTokens ts with
      | none => rw [hts] at h; cases h
      | some rest =>
        rw [hts] at h
        obtain ⟨q, n⟩ := qn
        injection h with h
        subst h
        have := parseTokens_length hts
        simp only [List.length_cons, this, List.length_cons]
        ring

theorem splitTokens_exists_cons :
    ∀ (l : List Char), ∃ t ts, splitTokens l = t :: ts
  | [] => ⟨[], [], rfl⟩
  | c :: rest => by
    simp only [splitTokens]
    by_cases hc : isSep c = true
    · rw [if_pos hc]
      exact ⟨[], splitTokens rest, rfl⟩
    · rw [if_neg hc]
      obtain ⟨t, ts, hts⟩ := splitTokens_exists_cons rest
      rw [hts]
      exact ⟨c :: t, ts, rfl⟩

theorem splitTokens_length :
    ∀ (l : List Char), (splitTokens l).length = 1 + l.countP isSep
  | [] => rfl
  | c :: rest => by
    simp only [splitTokens]
    by_cases hc : isSep c = true
    · rw [if_pos hc, List.countP_cons, if_pos hc]
      simp only [List.length_cons, splitTokens_length rest]
      omega
    · rw [if_neg hc, List.countP_cons, if_neg hc]
      obtain ⟨t, ts, hts⟩ := splitTokens_exists_cons rest
      have := splitTokens_length rest
      rw [hts] at this ⊢
      simp only [List.length_cons] at this ⊢
      omega

theorem Version.parse_none_iff {s : String} :
    Version.parse s = none ↔
      ∃ t ∈ splitTokens (lowercase s.data), Version.parsePart t = none := by
  unfold Version.parse
  rw [← parseTokens_none_iff]
  cases Version.parseTokens (splitTokens (lowercase s.data)) <;> simp

theorem Version.parse_s {s : String} {v : Version} (h : Version.parse s = some v) :
    v.s = s := by
  unfold Version.parse at h
  cases hts : Version.parseTokens (splitTokens (lowercase s.data)) with
  | none => rw [hts] at h; cases h
  | some ps =>
    rw [hts] at h
    injection h with h
    rw [← h]

theorem Version.parse_parts {s : String} {v : Version} (h : Version.parse s = some v) :
    Version.parseTokens (splitTokens (lowercase s.data)) = some v.parts := by
  unfold Version.parse at h
  cases hts : Version.parseTokens (splitTokens (lowercase s.data)) with
  | none => rw [hts] at h; cases h
  | some ps =>
    rw [hts] at h
    injection h with h
    rw [← h]

theorem parseLines_none_iff :
    ∀ {ls : List String}, parseLines ls = none ↔ ∃ l ∈ ls, Version.parse l = none
  | [] => by simp [parseLines]
  | l :: ls => by
    simp only [parseLines]
    cases hp : Version.parse l with
    | none =>
      constructor
      · intro _
        exact ⟨l, List.mem_cons_self l ls, hp⟩
      · intro _
        rfl
    | some v =>
      cases hls : parseLines ls with
      | none =>
        have := parseLines_none_iff.mp hls
        simp only [List.mem_cons]
        constructor
        · intro _
          obtain ⟨u, hu, hnu⟩ := this
          exact ⟨u, Or.inr hu, hnu⟩
        · intro _
          trivial
      | some vs =>
        constructor
        · intro hcontra
          cases hcontra
        · rintro ⟨u, hu, hnu⟩
          rcases List.mem_cons.mp hu with rfl | hu'
          · rw [hp] at hnu
            cases hnu
          · have : parseLines ls = none := parseLines_none_iff.mpr ⟨u, hu', hnu⟩
            rw [this] at hls
            cases hls

theorem parseLines_render :
    ∀ {ls : List String} {vs : List Version}, parseLines ls = some vs →
      vs.map renderVersion = ls
  | [], vs => by
    intro h
    simp only [parseLines] at h
    injection h with h
    subst h
    rfl
  | l :: ls, vs => by
    intro h
    simp only [parseLines] at h
    cases hp : Version.parse l with
    | none => rw [hp] at h; cases h
    | some v =>
      rw [hp] at h
      cases hls : parseLines ls with
      | none => rw [hls] at h; cases h
      | some vs' =>
        rw [hls] at h
        injection h with h
        subst h
        simp only [List.map_cons, parseLines_render hls]
        rw [renderVersion, Version.parse_s hp]

/-! ### The claims -/

/-- C1 (counterexample): an empty token does not yield the default pair:
`parse_part("")` takes the `None` branch of the scan and builds its
qualifier half with `new_qualifier("")`, which carries rank `-1`, not the
default segment. -/
theorem C1_counterexample :
    ¬ (Version.parsePart [] = some (VersionPart.default, VersionPart.default)) := by
  decide

/-- C1 (amended): for the empty token `parse_part` returns qualifier
`new_qualifier("")` — rank `-1`, empty label — and numeric `default`; such
a token therefore compares strictly below a genuinely absent position
padded with the default segment, as the trailing separator of `"1."`
versus `"1"` shows. -/
theorem C1_empty_token_amended :
    Version.parsePart [] = some (VersionPart.new_qualifier [], VersionPart.default) ∧
    VersionPart.new_qualifier [] = ⟨-1, []⟩ ∧
    VersionPart.cmp (VersionPart.new_qualifier []) VersionPart.default = .lt ∧
    cmpLines ("1.") ("1") = some Ordering.lt := by
  decide

/-- C2 (counterexample): since `-` is not a separator, `"1.0-rc"` and
`"1.0-cr"` parse with the qualifier tokens `"0-rc"` / `"0-cr"`, whose rank
is `-1`; no segment of either version carries rank `-2`. -/
theorem C2_counterexample :
    (Version.parse ("1.0-rc")).map Version.parts =
        some [⟨0, []⟩, ⟨1, []⟩, ⟨-1, ("0-rc").data⟩, ⟨0, []⟩] ∧
    (Version.parse ("1.0-cr")).map Version.parts =
        some [⟨0, []⟩, ⟨1, []⟩, ⟨-1, ("0-cr").data⟩, ⟨0, []⟩] ∧
    ([⟨0, []⟩, ⟨1, []⟩, ⟨-1, ("0-rc").data⟩, ⟨0, []⟩] : List VersionPart).map VersionPart.n =
        [0, 1, -1, 0] ∧
    ([⟨0, []⟩, ⟨1, []⟩, ⟨-1, ("0-cr").data⟩, ⟨0, []⟩] : List VersionPart).map VersionPart.n =
        [0, 1, -1, 0] ∧
    (-2 : Int) ∉ ([0, 1, -1, 0] : List Int) := by
  decide

/-- C2 (amended): under the comparator `"1.0-alpha" < "1.0-beta" <
"1.0-rc" < "1.0"`; the parsed forms of `"1.0-cr"` and `"1.0-rc"` carry the
qualifier segments `"0-cr"` / `"0-rc"`, which both map to rank `-1`, so
the two versions tie on rank and are ordered only by the lexical label
tie-break, making `"1.0-cr" < "1.0-rc"` (they are not equal overall). -/
theorem C2_qualifier_order_amended :
    cmpLines ("1.0-alpha") ("1.0-beta") = some Ordering.lt ∧
    cmpLines ("1.0-beta") ("1.0-rc") = some Ordering.lt ∧
    cmpLines ("1.0-rc") ("1.0") = some Ordering.lt ∧
    (Version.parse ("1.0-cr")).map Version.parts =
        some [⟨0, []⟩, ⟨1, []⟩, VersionPart.new_qualifier (("0-cr").data), ⟨0, []⟩] ∧
    (Version.parse ("1.0-rc")).map Version.parts =
        some [⟨0, []⟩, ⟨1, []⟩, VersionPart.new_qualifier (("0-rc").data), ⟨0, []⟩] ∧
    (VersionPart.new_qualifier (("0-cr").data)).n = -1 ∧
    (VersionPart.new_qualifier (("0-rc").data)).n = -1 ∧
    cmpCharList (("0-cr").data) (("0-rc").data) = .lt ∧
    cmpLines ("1.0-cr") ("1.0-rc") = some Ordering.lt ∧
    ¬ cmpLines ("1.0-cr") ("1.0-rc") = some Ordering.eq := by
  decide

/-- C3: on parsed versions the comparator is a strict total order —
exactly one of `a < b`, `a == b`, `a > b` holds (with `a > b` as `b < a`),
and `<` is transitive. -/
theorem C3_strict_total_order :
    ∀ (sa sb sc : String) (va vb vc : Version),
      Version.parse sa = some va → Version.parse sb = some vb →
      Version.parse sc = some vc →
      ((Version.cmp va vb = .lt ∧ ¬Version.cmp va vb = .eq ∧ ¬Version.cmp vb va = .lt) ∨
        (¬Version.cmp va vb = .lt ∧ Version.cmp va vb = .eq ∧ ¬Version.cmp vb va = .lt) ∨
        (¬Version.cmp va vb = .lt ∧ ¬Version.cmp va vb = .eq ∧ Version.cmp vb va = .lt)) ∧
      (Version.cmp va vb = .lt → Version.cmp vb vc = .lt → Version.cmp va vc = .lt) := by
  intro sa sb sc va vb vc _ _ _
  refine ⟨?_, fun h1 h2 => Version.cmp_lt_trans h1 h2⟩
  cases h : Version.cmp va vb with
  | lt =>
    refine Or.inl ⟨rfl, by simp, ?_⟩
    rw [Version.cmp_swap va vb, h]
    decide
  | eq =>
    refine Or.inr (Or.inl ⟨by simp, rfl, ?_⟩)
    rw [Version.cmp_swap va vb, h]
    decide
  | gt =>
    refine Or.inr (Or.inr ⟨by simp, by simp, ?_⟩)
    rw [Version.cmp_swap va vb, h]
    decide

theorem C3_witness :
    Version.cmp ⟨"1.0", [⟨0, []⟩, ⟨1, []⟩, ⟨0, []⟩, ⟨0, []⟩]⟩
      ⟨"2.0", [⟨0, []⟩, ⟨2, []⟩, ⟨0, []⟩, ⟨0, []⟩]⟩ = .lt :=
  (C3_strict_total_order ("1.0") ("1.2") ("2.0")
      ⟨"1.0", [⟨0, []⟩, ⟨1, []⟩, ⟨0, []⟩, ⟨0, []⟩]⟩
      ⟨"1.2", [⟨0, []⟩, ⟨1, []⟩, ⟨0, []⟩, ⟨2, []⟩]⟩
      ⟨"2.0", [⟨0, []⟩, ⟨2, []⟩, ⟨0, []⟩, ⟨0, []⟩]⟩
      (by decide) (by decide) (by decide)).2 (by decide) (by decide)

/-- C4: when every compared position (shorter side padded with the default
segment) holds equal parts, the version with fewer segments compares as
lesser; `"1.0" < "1.0.0"`; and two versions compare `Equal` exactly when
their part lists are identical (same length, same contents). -/
theorem C4_length_tiebreak :
    (∀ v w : Version,
        (∀ i, i < max v.parts.length w.parts.length →
          v.parts.getD i VersionPart.default = w.parts.getD i VersionPart.default) →
        v.parts.length < w.parts.length → Version.cmp v w = .lt) ∧
    cmpLines ("1.0") ("1.0.0") = some Ordering.lt ∧
    (∀ v w : Version, Version.cmp v w = .eq ↔ v.parts = w.parts) := by
  refine ⟨?_, by decide, fun v w => Version.cmp_eq_iff⟩
  intro v w hpt hlen
  have hpad : padCmp v.parts w.parts = .eq := by
    rw [padCmp_eq_iff_pointwise]
    intro i
    by_cases hi : i < max v.parts.length w.parts.length
    · exact hpt i hi
    · rw [List.getD_eq_default _ _ (by omega), List.getD_eq_default _ _ (by omega)]
  rw [Version.cmp_eq_pad, hpad]
  exact cmpNat_lt_iff.mpr hlen

/-- C5: the end-to-end scenario — sorting the six input lines yields
exactly the expected order, and `"1.2" < "1.10"` because numeric segments
compare as integers (`2` and `10`), not as text. -/
theorem C5_sort_scenario :
    sortLines (["2.0", "1.0", "1.0-beta", "1.0-alpha", "1.10", "1.2"]) =
      some (["1.0-alpha", "1.0-beta", "1.0", "1.2", "1.10", "2.0"]) ∧
    cmpLines ("1.2") ("1.10") = some Ordering.lt ∧
    (Version.parse ("1.2")).map Version.parts =
      some [⟨0, []⟩, ⟨1, []⟩, ⟨0, []⟩, ⟨2, []⟩] ∧
    (Version.parse ("1.10")).map Version.parts =
      some [⟨0, []⟩, ⟨1, []⟩, ⟨0, []⟩, ⟨10, []⟩] := by
  decide

/-- C6: a token holding a digit that is followed anywhere later by a
non-digit (in particular any token where digits and non-digits interleave
more than once) gets no numeric suffix: the whole token becomes the
qualifier half and the numeric half is the default segment;
`"a1b2"` is the claimed instance. -/
theorem C6_mixed_token :
    (∀ (p m r : List Char) (d c : Char), d.isDigit = true → c.isDigit = false →
        Version.parsePart (p ++ d :: (m ++ c :: r)) =
          some (VersionPart.new_qualifier (p ++ d :: (m ++ c :: r)), VersionPart.default)) ∧
    Version.parsePart (("a1b2").data) =
      some (VersionPart.new_qualifier (("a1b2").data), VersionPart.default) ∧
    VersionPart.new_qualifier (("a1b2").data) = ⟨-1, ("a1b2").data⟩ := by
  refine ⟨?_, by decide, by decide⟩
  intro p m r d c hd hc
  have hnone := suffixStartGo_mixed_none p d (m ++ c :: r) 0 hd ⟨c, by simp, hc⟩
  simp only [Version.parsePart, hnone]

/-- C7: a parse fails exactly when some token's digit suffix exceeds
`i64::MAX`, and the whole run aborts (producing nothing) exactly when some
line fails to parse — every other line yields a segment list. -/
theorem C7_overflow_only_failure :
    (∀ s : String, Version.parse s = none ↔
        ∃ t ∈ splitTokens (lowercase s.data), ∃ idx,
          suffixStartGo t 0 none = some idx ∧
          I64MAX < (digitsToNat (t.drop idx) : Int)) ∧
    (∀ lines : List String,
        sortLines lines = none ↔ ∃ l ∈ lines, Version.parse l = none) := by
  constructor
  · intro s
    rw [Version.parse_none_iff]
    constructor
    · rintro ⟨t, ht, hnone⟩
      obtain ⟨idx, hidx, hover⟩ := parsePart_none_iff.mp hnone
      exact ⟨t, ht, idx, hidx, hover⟩
    · rintro ⟨t, ht, idx, hidx, hover⟩
      exact ⟨t, ht, parsePart_none_iff.mpr ⟨idx, hidx, hover⟩⟩
  · intro lines
    unfold sortLines
    rw [← parseLines_none_iff]
    cases parseLines lines <;> simp

/-- C8: `"1.0-BETA"` parses to the same segments as `"1.0-beta"` while its
stored original stays `"1.0-BETA"`; any two versions with equal segment
lists compare `Equal` whatever their original strings; and output renders
the stored original verbatim. -/
theorem C8_ordering_ignores_original :
    ((Version.parse ("1.0-BETA")).map Version.parts =
        (Version.parse ("1.0-beta")).map Version.parts) ∧
    ((Version.parse ("1.0-BETA")).map Version.s = some ("1.0-BETA")) ∧
    (∀ v w : Version, v.parts = w.parts → Version.cmp v w = .eq) ∧
    (∀ v : Version, renderVersion v = v.s) ∧
    (∀ (s : String) (v : Version), Version.parse s = some v → v.s = s) := by
  refine ⟨by decide, by decide, ?_, fun v => rfl, fun s v h => Version.parse_s h⟩
  intro v w h
  exact Version.cmp_eq_iff.mpr h

/-- C9: whenever the program produces output, the output lines are a
permutation of the input lines — every line appears verbatim, with its
multiplicity, only reordered. -/
theorem C9_output_permutes_input :
    ∀ (lines out : List String), sortLines lines = some out → out.Perm lines := by
  intro lines out h
  unfold sortLines at h
  cases hls : parseLines lines with
  | none => rw [hls] at h; cases h
  | some vs =>
    rw [hls] at h
    injection h with h
    subst h
    have hperm := (List.perm_insertionSort versionLE vs).map renderVersion
    rwa [parseLines_render hls] at hperm

theorem C9_witness :
    (["1.0-alpha", "1.0"] : List String).Perm (["1.0", "1.0-alpha"]) :=
  C9_output_permutes_input (["1.0", "1.0-alpha"]) (["1.0-alpha", "1.0"]) (by decide)

/-- C10 (counterexample): `Version::parse` does not always succeed — the
line `"9223372036854775808"` (= 2^63, one past `i64::MAX`) makes the
numeric-suffix parse fail. -/
theorem C10_counterexample :
    Version.parse ("9223372036854775808") = none := by
  decide

/-- C10 (amended): whenever `Version::parse` succeeds — which it does on
every line without an overflowing digit suffix, including the empty string
— the segment list has length exactly `2 * (1 + number of separators in
the lowercased input)`, an even count of at least 2, hence non-empty. -/
theorem C10_parts_length_amended :
    (∀ (s : String) (v : Version), Version.parse s = some v →
        v.parts.length = 2 * (1 + (lowercase s.data).countP isSep) ∧
        v.parts.length % 2 = 0 ∧ 2 ≤ v.parts.length ∧ v.parts ≠ []) ∧
    Version.parse ("") = some ⟨"", [⟨-1, []⟩, ⟨0, []⟩]⟩ := by
  refine ⟨?_, by decide⟩
  intro s v h
  have h1 := parseTokens_length (Version.parse_parts h)
  rw [splitTokens_length] at h1
  refine ⟨h1, by omega, by omega, ?_⟩
  intro hnil
  rw [hnil] at h1
  simp only [List.length_nil] at h1
  omega
